import Mathlib

/-!
Verification of the vocabulary embedding store (`src/mcp-server/src/embeddings.py`).

Python floats are modelled as real numbers, Python dicts (which preserve
insertion order and keep a key's position on overwrite) as association lists
over `String`, and the external embedding provider `get_text_embedding` as an
oracle `String → Option (List ℝ)` where `none` models a raised exception.
A Python `list.sort(key=..., reverse=True)` is a stable descending sort,
modelled by `List.mergeSort` with the comparison `y.similarity ≤ x.similarity`.
A Python slice `l[:limit]` is modelled by `pySlice`, including its behaviour
on negative `limit` (dropping `|limit|` elements from the end).
-/

namespace Vocab

/-- Dot product as computed on line 36 of `embeddings.py`:
`sum(a * b for a, b in zip(vec1, vec2))`; `zip` truncates to the shorter list. -/
def dotList (vec1 vec2 : List ℝ) : ℝ :=
  ((vec1.zip vec2).map fun p => p.1 * p.2).sum

/-- Sum of squares, the radicand of the magnitude computation on
lines 37-38 of `embeddings.py`: `sum(a * a for a in vec)`. -/
def sumSq (v : List ℝ) : ℝ :=
  (v.map fun a => a * a).sum

/-- Vector magnitude, lines 37-38 of `embeddings.py`: `math.sqrt(sum(a * a for a in vec))`. -/
noncomputable def magnitude (v : List ℝ) : ℝ :=
  Real.sqrt (sumSq v)

/-- `cosine_similarity` from `embeddings.py` lines 30-43: dot product over
`zip`, magnitudes over each full vector, `0.0` when either magnitude is zero,
otherwise `dot / (magnitude1 * magnitude2)`. -/
noncomputable def cosine_similarity (vec1 vec2 : List ℝ) : ℝ :=
  if magnitude vec1 = 0 ∨ magnitude vec2 = 0 then 0
  else dotList vec1 vec2 / (magnitude vec1 * magnitude vec2)

/-- Metadata stored per word in `WordEmbeddingStore.words` (`embeddings.py` lines 62-65). -/
structure WordData where
  meaning : String
  status : String
  deriving DecidableEq

/-- The external `get_text_embedding` (lines 15-27), as an oracle: `none`
models the provider raising an exception for that text. -/
abbrev Provider : Type := String → Option (List ℝ)

/-- Python dict insertion over an insertion-ordered association list:
overwriting an existing key keeps its position, a new key is appended. -/
def dictInsert {α : Type} (k : String) (v : α) : List (String × α) → List (String × α)
  | [] => [(k, v)]
  | e :: rest => if e.1 = k then (e.1, v) :: rest else e :: dictInsert k v rest

/-- Python dict lookup, returning `none` for an absent key. -/
def dictFind {α : Type} (k : String) : List (String × α) → Option α
  | [] => none
  | e :: rest => if e.1 = k then some e.2 else dictFind k rest

/-- The two dict fields of `WordEmbeddingStore.__init__` (lines 51-53). -/
structure WordEmbeddingStore where
  embeddings : List (String × List ℝ)
  words : List (String × WordData)

/-- A freshly constructed store: both dicts empty (lines 51-53). -/
def emptyStore : WordEmbeddingStore := ⟨[], []⟩

/-- `add_word` (lines 55-67): fetch the embedding for `word`; on success store
the embedding and the metadata under `word`; on a provider failure the
exception is caught (line 66) and the store is left unchanged. -/
def add_word (p : Provider) (st : WordEmbeddingStore) (word meaning status : String) :
    WordEmbeddingStore :=
  match p word with
  | none => st
  | some embedding =>
    { embeddings := dictInsert word embedding st.embeddings
      words := dictInsert word ⟨meaning, status⟩ st.words }

/-- One element of the `words_list` argument of `add_words_batch` (lines 69-79):
`status` is optional, read as `word_data.get("status", "new")`. -/
structure BatchEntry where
  english : String
  japanese : String
  status : Option String

/-- `add_words_batch` (lines 69-79): apply `add_word` to each entry in input
order, sequentially. -/
def add_words_batch (p : Provider) (st : WordEmbeddingStore)
    (words_list : List BatchEntry) : WordEmbeddingStore :=
  words_list.foldl
    (fun s wd => add_word p s wd.english wd.japanese (wd.status.getD "new")) st

/-- One search result dict (lines 96-101). -/
structure ScoredEntry where
  word : String
  meaning : String
  status : String
  similarity : ℝ

/-- Python slice `l[:k]`: for `k ≥ 0` the first `k` elements, for `k < 0`
all but the last `|k|` elements (empty when `|k| ≥ l.length`). -/
def pySlice {α : Type} (k : Int) (l : List α) : List α :=
  if 0 ≤ k then l.take k.toNat else l.take (l.length - (-k).toNat)

/-- The `similarities` list built on lines 93-101: one scored entry per key of
`self.embeddings`, in dict (insertion) order. The lookup `self.words[word]`
is modelled totally via a default; it never misses under `keysAligned`. -/
noncomputable def simEntries (st : WordEmbeddingStore) (target_embedding : List ℝ) :
    List ScoredEntry :=
  st.embeddings.map fun we =>
    { word := we.1
      meaning := ((dictFind we.1 st.words).getD ⟨"", ""⟩).meaning
      status := ((dictFind we.1 st.words).getD ⟨"", ""⟩).status
      similarity := cosine_similarity target_embedding we.2 }

/-- The comparison realised by line 104's
`similarities.sort(key=lambda x: x["similarity"], reverse=True)`. -/
noncomputable def simLE (x y : ScoredEntry) : Bool :=
  decide (y.similarity ≤ x.similarity)

/-- Line 104's sorted list: Python's sort is stable, so this is a stable
descending sort on `similarity`, modelled by `List.mergeSort`. -/
noncomputable def sortedSims (st : WordEmbeddingStore) (target_embedding : List ℝ) :
    List ScoredEntry :=
  (simEntries st target_embedding).mergeSort simLE

/-- `search_similar_words` (lines 81-109): an empty store short-circuits to
`[]` (lines 86-87) before any provider call; a provider failure for the query
is caught and yields `[]` (lines 107-109); otherwise the scored entries are
sorted descending by similarity and sliced to `limit` (lines 103-105). -/
noncomputable def search_similar_words (p : Provider) (st : WordEmbeddingStore)
    (target_text : String) (limit : Int) : List ScoredEntry :=
  if st.embeddings.isEmpty then []
  else
    match p target_text with
    | none => []
    | some target_embedding => pySlice limit (sortedSims st target_embedding)

/-- One element of the result of `get_all_words` (lines 115-122). -/
structure WordInfo where
  word : String
  meaning : String
  status : String
  deriving DecidableEq

/-- `get_all_words` (lines 111-122): metadata snapshot in dict order. -/
def get_all_words (st : WordEmbeddingStore) : List WordInfo :=
  st.words.map fun wd => ⟨wd.1, wd.2.meaning, wd.2.status⟩

/-- `clear` (lines 124-129): both dicts are emptied. -/
def clear (_st : WordEmbeddingStore) : WordEmbeddingStore := ⟨[], []⟩

/-- The store invariant of spec §3: the key sequences of the embedding dict
and the metadata dict coincide. -/
def keysAligned (st : WordEmbeddingStore) : Prop :=
  st.embeddings.map Prod.fst = st.words.map Prod.fst

/-- A provider that always succeeds with the embedding `[1]`; used for
concrete instances. -/
def provOne : Provider := fun _ => some [1]

/-- A provider that always fails; used for concrete instances. -/
def provFail : Provider := fun _ => none

/-- A concrete two-word store, used for concrete instances. -/
def stTwo : WordEmbeddingStore :=
  ⟨[("alpha", [1]), ("beta", [1])],
   [("alpha", ⟨"A", "new"⟩), ("beta", ⟨"B", "new"⟩)]⟩

/-- A provider that fails exactly on the word `"beta"`; used for concrete
instances. -/
def provSkipBeta : Provider := fun s => if s = "beta" then none else some [1]

lemma sumSq_nonneg (v : List ℝ) : 0 ≤ sumSq v := by
  induction v with
  | nil => simp [sumSq]
  | cons a t ih =>
    simp only [sumSq, List.map_cons, List.sum_cons] at *
    nlinarith [mul_self_nonneg a]

lemma sumSq_nil : sumSq ([] : List ℝ) = 0 := rfl

lemma sumSq_cons (a : ℝ) (t : List ℝ) : sumSq (a :: t) = a * a + sumSq t := by
  simp [sumSq]

lemma dotList_cons (a b : ℝ) (t1 t2 : List ℝ) :
    dotList (a :: t1) (b :: t2) = a * b + dotList t1 t2 := by
  simp [dotList]

lemma magnitude_nonneg (v : List ℝ) : 0 ≤ magnitude v :=
  Real.sqrt_nonneg _

lemma sumSq_eq_zero_of_all_zero {v : List ℝ} (h : ∀ x ∈ v, x = 0) : sumSq v = 0 := by
  induction v with
  | nil => simp [sumSq]
  | cons a t ih =>
    have ha : a = 0 := h a (List.mem_cons_self a t)
    have ht : sumSq t = 0 := ih fun x hx => h x (List.mem_cons_of_mem a hx)
    simp [sumSq_cons, ha, ht]

lemma magnitude_eq_zero_of_all_zero {v : List ℝ} (h : ∀ x ∈ v, x = 0) :
    magnitude v = 0 := by
  rw [magnitude, sumSq_eq_zero_of_all_zero h, Real.sqrt_zero]

lemma sumSq_pos_of_ne_zero {v : List ℝ} (h : ∃ x ∈ v, x ≠ 0) : 0 < sumSq v := by
  induction v with
  | nil => simp at h
  | cons a t ih =>
    rcases h with ⟨x, hx, hxne⟩
    rcases List.mem_cons.mp hx with rfl | hxt
    · have hxx : 0 < x * x := mul_self_pos.mpr hxne
      have := sumSq_nonneg t
      simp only [sumSq_cons]
      nlinarith
    · have := ih ⟨x, hxt, hxne⟩
      simp only [sumSq_cons]
      nlinarith [mul_self_nonneg a]

lemma dotList_self (v : List ℝ) : dotList v v = sumSq v := by
  induction v with
  | nil => simp [dotList, sumSq]
  | cons a t ih => simp [dotList_cons, sumSq_cons, ih]

/-- Cauchy-Schwarz for the truncating dot product: the square of the dot
product over the common prefix is bounded by the product of the full sums of
squares. Holds for vectors of unequal length. -/
lemma dotList_sq_le (v1 : List ℝ) : ∀ v2 : List ℝ,
    (dotList v1 v2) ^ 2 ≤ sumSq v1 * sumSq v2 := by
  induction v1 with
  | nil =>
    intro v2
    simp [dotList, sumSq]
  | cons a t1 ih =>
    intro v2
    cases v2 with
    | nil =>
      simp only [dotList, List.zip_nil_right, List.map_nil, List.sum_nil, sumSq_nil,
        mul_zero]
      norm_num
    | cons b t2 =>
      have h := ih t2
      have h1 := sumSq_nonneg t1
      have h2 := sumSq_nonneg t2
      rw [dotList_cons, sumSq_cons, sumSq_cons]
      set d := dotList t1 t2 with hd
      set S1 := sumSq t1 with hS1
      set S2 := sumSq t2 with hS2
      rcases eq_or_lt_of_le h1 with hz | hpos
      · have hd0 : d = 0 := by nlinarith [sq_nonneg d]
        rw [hd0, ← hz]
        nlinarith [mul_nonneg (mul_self_nonneg a) h2, sq_nonneg (a * b)]
      · have key : S1 * ((a * b + d) ^ 2) ≤ S1 * ((a * a + S1) * (b * b + S2)) := by
          nlinarith [sq_nonneg (a * d - b * S1), mul_nonneg (sq_nonneg a) (sub_nonneg.mpr h),
            mul_nonneg (le_of_lt hpos) (sub_nonneg.mpr h)]
        exact le_of_mul_le_mul_left key hpos

lemma abs_dotList_le (v1 v2 : List ℝ) :
    |dotList v1 v2| ≤ magnitude v1 * magnitude v2 := by
  have h := dotList_sq_le v1 v2
  calc |dotList v1 v2| = Real.sqrt ((dotList v1 v2) ^ 2) := (Real.sqrt_sq_eq_abs _).symm
    _ ≤ Real.sqrt (sumSq v1 * sumSq v2) := Real.sqrt_le_sqrt h
    _ = magnitude v1 * magnitude v2 := Real.sqrt_mul (sumSq_nonneg v1) _


lemma sumSq_append (v u : List ℝ) : sumSq (v ++ u) = sumSq v + sumSq u := by
  simp [sumSq]

lemma dotList_take (v1 : List ℝ) : ∀ v2 : List ℝ,
    dotList v1 v2 = dotList (v1.take v2.length) (v2.take v1.length) := by
  induction v1 with
  | nil => intro v2; simp [dotList]
  | cons a t1 ih =>
    intro v2
    cases v2 with
    | nil => simp [dotList]
    | cons b t2 =>
      simp only [List.length_cons, List.take_succ_cons, dotList_cons]
      rw [ih t2]

lemma dotList_append_right (v1 : List ℝ) : ∀ (v2 extra : List ℝ),
    v1.length ≤ v2.length → dotList v1 (v2 ++ extra) = dotList v1 v2 := by
  induction v1 with
  | nil => intro v2 extra _; simp [dotList]
  | cons a t1 ih =>
    intro v2 extra h
    cases v2 with
    | nil => simp at h
    | cons b t2 =>
      simp only [List.cons_append, dotList_cons]
      rw [ih t2 extra (by simpa using h)]

lemma dictInsert_map_fst_congr {α β : Type} (k : String) (v1 : α) (v2 : β) :
    ∀ (l1 : List (String × α)) (l2 : List (String × β)),
      l1.map Prod.fst = l2.map Prod.fst →
      (dictInsert k v1 l1).map Prod.fst = (dictInsert k v2 l2).map Prod.fst
  | [], [], _ => by simp [dictInsert]
  | [], q :: t2, h => by simp at h
  | p :: t1, [], h => by simp at h
  | p :: t1, q :: t2, h => by
    simp only [List.map_cons, List.cons.injEq] at h
    obtain ⟨hk, ht⟩ := h
    by_cases hpk : p.1 = k
    · have hqk : q.1 = k := by rw [← hk]; exact hpk
      simp [dictInsert, hpk, hqk, hk, ht]
    · have hqk : ¬q.1 = k := by rw [← hk]; exact hpk
      simp only [dictInsert, if_neg hpk, if_neg hqk, List.map_cons, hk,
        List.cons.injEq, true_and]
      exact dictInsert_map_fst_congr k v1 v2 t1 t2 ht

lemma add_word_keysAligned (p : Provider) (st : WordEmbeddingStore) (w m s : String)
    (h : keysAligned st) : keysAligned (add_word p st w m s) := by
  unfold add_word
  cases p w with
  | none => exact h
  | some e => exact dictInsert_map_fst_congr w e ⟨m, s⟩ st.embeddings st.words h

lemma add_words_batch_keysAligned (p : Provider) (l : List BatchEntry) :
    ∀ st : WordEmbeddingStore, keysAligned st → keysAligned (add_words_batch p st l) := by
  induction l with
  | nil => intro st h; exact h
  | cons e rest ih =>
    intro st h
    have h1 := add_word_keysAligned p st e.english e.japanese (e.status.getD "new") h
    simpa [add_words_batch] using ih _ h1


/-- C8: for every pair of vectors, `cosine_similarity` returns `0.0` when
either vector has zero magnitude (i.e. is all zeros), and — being a total
function guarded by the zero-magnitude test on lines 40-41 — never performs a
division by zero. -/
theorem cosine_similarity_zero_magnitude (v1 v2 : List ℝ)
    (h : (∀ x ∈ v1, x = 0) ∨ (∀ x ∈ v2, x = 0)) :
    cosine_similarity v1 v2 = 0 := by
  rcases h with h | h
  · rw [cosine_similarity, if_pos (Or.inl (magnitude_eq_zero_of_all_zero h))]
  · rw [cosine_similarity, if_pos (Or.inr (magnitude_eq_zero_of_all_zero h))]

theorem cosine_similarity_zero_magnitude_witness :
    cosine_similarity [0, 0] [1, 2] = 0 :=
  cosine_similarity_zero_magnitude [0, 0] [1, 2] (Or.inl (by norm_num))

/-- C9: `cosine_similarity v v = 1` for every nonzero vector `v`, and the
result always lies in `[-1, 1]` (Python floats modelled as real numbers). -/
theorem cosine_similarity_self_and_bounds :
    (∀ v : List ℝ, (∃ x ∈ v, x ≠ 0) → cosine_similarity v v = 1) ∧
    (∀ v1 v2 : List ℝ,
      -1 ≤ cosine_similarity v1 v2 ∧ cosine_similarity v1 v2 ≤ 1) := by
  constructor
  · intro v hv
    have hS : 0 < sumSq v := sumSq_pos_of_ne_zero hv
    have hm : magnitude v ≠ 0 := by
      rw [magnitude]
      exact ne_of_gt (Real.sqrt_pos.mpr hS)
    rw [cosine_similarity, if_neg (by push_neg; exact ⟨hm, hm⟩), dotList_self,
      magnitude, Real.mul_self_sqrt (le_of_lt hS)]
    exact div_self (ne_of_gt hS)
  · intro v1 v2
    by_cases h : magnitude v1 = 0 ∨ magnitude v2 = 0
    · rw [cosine_similarity, if_pos h]
      norm_num
    · rw [cosine_similarity, if_neg h]
      push_neg at h
      have h1 : 0 < magnitude v1 := lt_of_le_of_ne (magnitude_nonneg v1) (Ne.symm h.1)
      have h2 : 0 < magnitude v2 := lt_of_le_of_ne (magnitude_nonneg v2) (Ne.symm h.2)
      have hm : 0 < magnitude v1 * magnitude v2 := mul_pos h1 h2
      have habs := abs_dotList_le v1 v2
      rw [abs_le] at habs
      constructor
      · rw [neg_le, ← neg_div]
        exact (div_le_one hm).mpr (by linarith [habs.1])
      · exact (div_le_one hm).mpr habs.2

theorem cosine_similarity_self_and_bounds_witness :
    cosine_similarity [1] [1] = 1 ∧ -1 ≤ cosine_similarity [1, 2] [3] :=
  ⟨cosine_similarity_self_and_bounds.1 [1] ⟨1, by simp, by norm_num⟩,
   (cosine_similarity_self_and_bounds.2 [1, 2] [3]).1⟩

/-- C10: `cosine_similarity` is total on pairs of unequal length (it never
raises a dimension-mismatch error): the dot product of line 36 is computed
over the common prefix only — `zip` truncates to the shorter vector and the
extra elements of the longer vector are ignored in the numerator — while each
magnitude sums over that vector's full length. -/
theorem cosine_similarity_truncating_dot :
    (∀ v1 v2 : List ℝ,
      dotList v1 v2 = dotList (v1.take v2.length) (v2.take v1.length)) ∧
    (∀ v1 v2 extra : List ℝ, v1.length ≤ v2.length →
      dotList v1 (v2 ++ extra) = dotList v1 v2 ∧
      sumSq (v2 ++ extra) = sumSq v2 + sumSq extra ∧
      cosine_similarity v1 (v2 ++ extra) =
        if magnitude v1 = 0 ∨ magnitude (v2 ++ extra) = 0 then 0
        else dotList v1 v2 / (magnitude v1 * magnitude (v2 ++ extra))) := by
  refine ⟨dotList_take, fun v1 v2 extra h => ⟨dotList_append_right v1 v2 extra h,
    sumSq_append v2 extra, ?_⟩⟩
  rw [cosine_similarity, dotList_append_right v1 v2 extra h]

theorem cosine_similarity_truncating_dot_witness :
    dotList [1, 2] ([3] ++ [4, 5]) = dotList [1, 2] [3] ∨
    dotList [1] ([3] ++ [4, 5]) = dotList [1] [3] :=
  Or.inr (cosine_similarity_truncating_dot.2 [1] [3] [4, 5] (by norm_num)).1

/-- C6: for every query and every limit, if the store is empty then
`search_similar_words` returns `[]` (lines 86-87); the result is `[]` for
every provider oracle, so no provider call can influence it — the early
return happens before `get_text_embedding` is reached. -/
theorem search_similar_words_empty_store (st : WordEmbeddingStore) (q : String)
    (k : Int) (h : st.embeddings = []) :
    ∀ p : Provider, search_similar_words p st q k = [] := by
  intro p
  simp [search_similar_words, h]

theorem search_similar_words_empty_store_witness :
    search_similar_words provFail emptyStore "move" 5 = [] :=
  search_similar_words_empty_store emptyStore "move" 5 rfl provFail

/-- C4: for every nonempty store, if the embedding fetch for the query fails
(the provider oracle returns `none`, modelling a raised exception), then
`search_similar_words` returns `[]`: the exception is caught on lines 107-109
and not propagated. -/
theorem search_similar_words_provider_failure (p : Provider)
    (st : WordEmbeddingStore) (q : String) (k : Int)
    (hne : st.embeddings ≠ []) (hfail : p q = none) :
    search_similar_words p st q k = [] := by
  rcases hE : st.embeddings with _ | ⟨hd, tl⟩
  · exact absurd hE hne
  · simp [search_similar_words, hE, hfail]

theorem search_similar_words_provider_failure_witness :
    search_similar_words provFail stTwo "move" 5 = [] :=
  search_similar_words_provider_failure provFail stTwo "move" 5 (by simp [stTwo]) rfl

/-- C2: every state-changing operation of the store preserves the invariant
that the key sequence of the embedding dict equals the key sequence of the
metadata dict (a fresh store and `clear` satisfy it outright), and when the
embedding fetch in `add_word` fails the store is left completely unchanged —
no partial state. `search_similar_words` and `get_all_words` are read-only in
the source (they assign to no field), so they preserve every invariant. -/
theorem store_ops_preserve_keysAligned :
    keysAligned emptyStore ∧
    (∀ (p : Provider) (st : WordEmbeddingStore) (w m s : String),
      keysAligned st → keysAligned (add_word p st w m s)) ∧
    (∀ (p : Provider) (st : WordEmbeddingStore) (l : List BatchEntry),
      keysAligned st → keysAligned (add_words_batch p st l)) ∧
    (∀ st : WordEmbeddingStore, keysAligned (clear st)) ∧
    (∀ (p : Provider) (st : WordEmbeddingStore) (w m s : String),
      p w = none → add_word p st w m s = st) := by
  refine ⟨rfl, add_word_keysAligned, fun p st l h => add_words_batch_keysAligned p l st h,
    fun _ => rfl, fun p st w m s hfail => ?_⟩
  unfold add_word
  rw [hfail]

theorem store_ops_preserve_keysAligned_witness :
    keysAligned (add_word provOne emptyStore "go" "iku" "new") ∧
    add_word provFail stTwo "go" "iku" "new" = stTwo :=
  ⟨store_ops_preserve_keysAligned.2.1 provOne emptyStore "go" "iku" "new" rfl,
   store_ops_preserve_keysAligned.2.2.2.2 provFail stTwo "go" "iku" "new" rfl⟩


lemma length_pySlice_le {α : Type} (k : Int) (l : List α) (hk : 0 ≤ k) :
    (pySlice k l).length ≤ k.toNat := by
  simp only [pySlice, if_pos hk, List.length_take]
  exact min_le_left _ _

lemma pySlice_zero {α : Type} (l : List α) : pySlice 0 l = [] := by
  simp [pySlice]

lemma length_pySlice_neg {α : Type} (k : Int) (l : List α) (hk : k < 0) :
    (pySlice k l).length = l.length - (-k).toNat := by
  simp only [pySlice, if_neg (not_le.mpr hk), List.length_take]
  exact min_eq_left (Nat.sub_le _ _)

lemma pySlice_sublist {α : Type} (k : Int) (l : List α) :
    List.Sublist (pySlice k l) l := by
  unfold pySlice
  split
  · exact List.take_sublist _ _
  · exact List.take_sublist _ _

lemma isEmpty_false_of_ne_nil {α : Type} {l : List α} (h : l ≠ []) :
    l.isEmpty = false := by
  cases l with
  | nil => exact absurd rfl h
  | cons a t => rfl

lemma search_nil_of_empty (p : Provider) (st : WordEmbeddingStore) (q : String)
    (k : Int) (hE : st.embeddings = []) : search_similar_words p st q k = [] := by
  simp [search_similar_words, hE]

lemma search_nil_of_provider_none (p : Provider) (st : WordEmbeddingStore)
    (q : String) (k : Int) (hp : p q = none) :
    search_similar_words p st q k = [] := by
  by_cases hE : st.embeddings = []
  · simp [search_similar_words, hE]
  · simp [search_similar_words, isEmpty_false_of_ne_nil hE, hp]

lemma search_eq_pySlice (p : Provider) (st : WordEmbeddingStore) (q : String)
    (k : Int) (t : List ℝ) (hne : st.embeddings ≠ []) (hp : p q = some t) :
    search_similar_words p st q k = pySlice k (sortedSims st t) := by
  simp [search_similar_words, isEmpty_false_of_ne_nil hne, hp]

lemma length_sortedSims (st : WordEmbeddingStore) (t : List ℝ) :
    (sortedSims st t).length = st.embeddings.length := by
  simp [sortedSims, simEntries]

lemma simLE_trans (a b c : ScoredEntry) : simLE a b → simLE b c → simLE a c := by
  simp only [simLE, decide_eq_true_eq]
  exact fun h1 h2 => le_trans h2 h1

lemma simLE_total (a b : ScoredEntry) : simLE a b || simLE b a := by
  simp only [simLE, Bool.or_eq_true, decide_eq_true_eq]
  exact le_total b.similarity a.similarity

lemma sortedSims_pairwise (st : WordEmbeddingStore) (t : List ℝ) :
    (sortedSims st t).Pairwise fun x y => y.similarity ≤ x.similarity := by
  have h := List.sorted_mergeSort simLE_trans simLE_total (simEntries st t)
  exact h.imp fun hxy => by simpa [simLE] using hxy

/-- C1 (amended): for `limit ≥ 0` the search returns at most `limit` entries,
and `limit = 0` yields the empty sequence; but a negative `limit` does not in
general yield an empty sequence — the Python slice `similarities[:limit]`
drops the last `|limit|` entries, so on a nonempty store with a successful
fetch the result has `size - |limit|` entries (clamped at zero). -/
theorem search_similar_words_limit (p : Provider) (st : WordEmbeddingStore)
    (q : String) (k : Int) :
    (0 ≤ k → (search_similar_words p st q k).length ≤ k.toNat) ∧
    (k = 0 → search_similar_words p st q k = []) ∧
    (k < 0 → ∀ t : List ℝ, st.embeddings ≠ [] → p q = some t →
      (search_similar_words p st q k).length
        = st.embeddings.length - (-k).toNat) := by
  refine ⟨fun hk => ?_, fun hk => ?_, fun hk t hne hp => ?_⟩
  · by_cases hE : st.embeddings = []
    · rw [search_nil_of_empty p st q k hE]
      simp
    · cases hp : p q with
      | none =>
        rw [search_nil_of_provider_none p st q k hp]
        simp
      | some t =>
        rw [search_eq_pySlice p st q k t hE hp]
        exact length_pySlice_le k _ hk
  · subst hk
    by_cases hE : st.embeddings = []
    · exact search_nil_of_empty p st q 0 hE
    · cases hp : p q with
      | none => exact search_nil_of_provider_none p st q 0 hp
      | some t =>
        rw [search_eq_pySlice p st q 0 t hE hp]
        exact pySlice_zero _
  · rw [search_eq_pySlice p st q k t hne hp, length_pySlice_neg k _ hk,
      length_sortedSims]

theorem search_similar_words_limit_witness :
    (search_similar_words provOne stTwo "move" 5).length ≤ (5 : Int).toNat ∧
    search_similar_words provOne stTwo "move" 0 = [] ∧
    (search_similar_words provOne stTwo "move" (-1)).length
      = stTwo.embeddings.length - ((-(-1 : Int)).toNat) :=
  ⟨(search_similar_words_limit provOne stTwo "move" 5).1 (by norm_num),
   (search_similar_words_limit provOne stTwo "move" 0).2.1 rfl,
   (search_similar_words_limit provOne stTwo "move" (-1)).2.2 (by norm_num) [1]
     (by simp [stTwo]) rfl⟩

/-- C1, counterexample to the claim as stated: `limit = -1 ≤ 0` on a
two-word store with a successful fetch returns one entry, not the empty
sequence. -/
theorem search_similar_words_negative_limit_counterexample :
    (-1 : Int) ≤ 0 ∧ search_similar_words provOne stTwo "move" (-1) ≠ [] := by
  refine ⟨by norm_num, fun hcontra => ?_⟩
  have hne : stTwo.embeddings ≠ [] := by simp [stTwo]
  have hlen : (search_similar_words provOne stTwo "move" (-1)).length
      = stTwo.embeddings.length - ((-(-1 : Int)).toNat) := by
    rw [search_eq_pySlice provOne stTwo "move" (-1) [1] hne rfl,
      length_pySlice_neg _ _ (by norm_num), length_sortedSims]
  rw [hcontra] at hlen
  simp [stTwo] at hlen


lemma pairwise_adjacent {l : List ScoredEntry}
    (hl : l.Pairwise fun x y => y.similarity ≤ x.similarity) :
    ∀ i (h1 : i + 1 < l.length),
      (l.get ⟨i + 1, h1⟩).similarity ≤ (l.get ⟨i, Nat.lt_of_succ_lt h1⟩).similarity := by
  intro i h1
  have h := List.pairwise_iff_getElem.mp hl i (i + 1) (Nat.lt_of_succ_lt h1) h1
    (Nat.lt_succ_self i)
  simpa using h

/-- C3: on a nonempty store with a successful query fetch, the returned
sequence is sorted by similarity descending (adjacent pairs are ordered), and
the sort is stable: any two entries of the pre-sort `similarities` list with
equal similarity keep their relative order — which is the insertion order of
the embeddings dict — in the sorted list, of which the returned sequence is
the `limit`-slice. -/
theorem search_similar_words_sorted (p : Provider) (st : WordEmbeddingStore)
    (q : String) (k : Int) (t : List ℝ)
    (hne : st.embeddings ≠ []) (hp : p q = some t) :
    (∀ i (h1 : i + 1 < (search_similar_words p st q k).length),
      ((search_similar_words p st q k).get ⟨i + 1, h1⟩).similarity ≤
        ((search_similar_words p st q k).get
          ⟨i, Nat.lt_of_succ_lt h1⟩).similarity) ∧
    (∀ a b : ScoredEntry, a.similarity = b.similarity →
      List.Sublist [a, b] (simEntries st t) →
      List.Sublist [a, b] (sortedSims st t)) ∧
    List.Sublist (search_similar_words p st q k) (sortedSims st t) := by
  have hres := search_eq_pySlice p st q k t hne hp
  have hsub : List.Sublist (search_similar_words p st q k) (sortedSims st t) := by
    rw [hres]
    exact pySlice_sublist k _
  refine ⟨?_, ?_, hsub⟩
  · exact pairwise_adjacent (List.Pairwise.sublist hsub (sortedSims_pairwise st t))
  · intro a b hab hpair
    have hle : simLE a b := by
      simp only [simLE, decide_eq_true_eq]
      exact le_of_eq hab.symm
    exact List.pair_sublist_mergeSort simLE_trans simLE_total hle hpair

theorem search_similar_words_sorted_witness :
    List.Sublist (search_similar_words provOne stTwo "move" 5)
      (sortedSims stTwo [1]) :=
  (search_similar_words_sorted provOne stTwo "move" 5 [1]
    (by simp [stTwo]) rfl).2.2


/-- C5: `add_words_batch` applies `add_word` to each entry in input order,
sequentially (first conjunct unrolls one step of the fold), and a single
entry's embedding-fetch failure neither aborts the batch nor reaches the
caller: for any batch of three entries with pairwise distinct words in which
exactly the `i`-th entry's fetch fails, the store built from empty afterwards
contains exactly the two successful words, in input order. -/
theorem add_words_batch_failure_isolation :
    (∀ (p : Provider) (st : WordEmbeddingStore) (e : BatchEntry)
        (rest : List BatchEntry),
      add_words_batch p st (e :: rest) =
        add_words_batch p (add_word p st e.english e.japanese (e.status.getD "new"))
          rest) ∧
    (∀ (p : Provider) (e1 e2 e3 : BatchEntry) (i : Fin 3),
      e1.english ≠ e2.english → e1.english ≠ e3.english → e2.english ≠ e3.english →
      (∀ j : Fin 3, j ≠ i → (p ([e1, e2, e3].get j).english).isSome = true) →
      p ([e1, e2, e3].get i).english = none →
      get_all_words (add_words_batch p emptyStore [e1, e2, e3]) =
        ([e1, e2, e3].eraseIdx i.val).map fun e =>
          ⟨e.english, e.japanese, e.status.getD "new"⟩) := by
  refine ⟨fun p st e rest => rfl, fun p e1 e2 e3 i h12 h13 h23 hok hfail => ?_⟩
  fin_cases i
  · obtain ⟨v2, hv2⟩ := Option.isSome_iff_exists.mp (hok 1 (by decide))
    obtain ⟨v3, hv3⟩ := Option.isSome_iff_exists.mp (hok 2 (by decide))
    simp only [List.get] at hfail hv2 hv3
    simp [add_words_batch, add_word, hfail, hv2, hv3, dictInsert, get_all_words,
      emptyStore, h23, List.eraseIdx]
  · obtain ⟨v1, hv1⟩ := Option.isSome_iff_exists.mp (hok 0 (by decide))
    obtain ⟨v3, hv3⟩ := Option.isSome_iff_exists.mp (hok 2 (by decide))
    simp only [List.get] at hfail hv1 hv3
    simp [add_words_batch, add_word, hfail, hv1, hv3, dictInsert, get_all_words,
      emptyStore, h13, List.eraseIdx]
  · obtain ⟨v1, hv1⟩ := Option.isSome_iff_exists.mp (hok 0 (by decide))
    obtain ⟨v2, hv2⟩ := Option.isSome_iff_exists.mp (hok 1 (by decide))
    simp only [List.get] at hfail hv1 hv2
    simp [add_words_batch, add_word, hfail, hv1, hv2, dictInsert, get_all_words,
      emptyStore, h12, List.eraseIdx]

theorem add_words_batch_failure_isolation_witness :
    get_all_words (add_words_batch provSkipBeta emptyStore
        [⟨"alpha", "A", none⟩, ⟨"beta", "B", some "mastered"⟩, ⟨"gamma", "C", none⟩]) =
      (([⟨"alpha", "A", none⟩, ⟨"beta", "B", some "mastered"⟩,
          ⟨"gamma", "C", none⟩] : List BatchEntry).eraseIdx (1 : Fin 3).val).map
        fun e => ⟨e.english, e.japanese, e.status.getD "new"⟩ :=
  add_words_batch_failure_isolation.2 provSkipBeta
    ⟨"alpha", "A", none⟩ ⟨"beta", "B", some "mastered"⟩ ⟨"gamma", "C", none⟩ 1
    (by decide) (by decide) (by decide) (by decide) rfl


lemma dictInsert_dictInsert {α : Type} (k : String) (v1 v2 : α)
    (l : List (String × α)) :
    dictInsert k v2 (dictInsert k v1 l) = dictInsert k v2 l := by
  induction l with
  | nil => simp [dictInsert]
  | cons e rest ih =>
    by_cases h : e.1 = k
    · simp [dictInsert, h]
    · simp [dictInsert, h, ih]

lemma map_info_filter_eq_nil (w : String) (l : List (String × WordData))
    (h : w ∉ l.map Prod.fst) :
    (l.map fun e => (⟨e.1, e.2.meaning, e.2.status⟩ : WordInfo)).filter
      (fun e => decide (e.word = w)) = [] := by
  induction l with
  | nil => simp
  | cons e rest ih =>
    simp only [List.map_cons, List.mem_cons, not_or] at h
    simp only [List.map_cons, List.filter_cons]
    rw [if_neg (by simp [Ne.symm h.1])]
    exact ih h.2

lemma map_info_filter_dictInsert_self (w : String) (d : WordData) :
    ∀ l : List (String × WordData), (l.map Prod.fst).Nodup →
      ((dictInsert w d l).map
        fun e => (⟨e.1, e.2.meaning, e.2.status⟩ : WordInfo)).filter
          (fun e => decide (e.word = w)) = [⟨w, d.meaning, d.status⟩] := by
  intro l
  induction l with
  | nil =>
    intro _
    simp [dictInsert]
  | cons e rest ih =>
    intro hnd
    rw [List.map_cons, List.nodup_cons] at hnd
    by_cases h : e.1 = w
    · simp only [dictInsert, if_pos h, List.map_cons, List.filter_cons]
      rw [if_pos (by simp [h]), map_info_filter_eq_nil w rest (h ▸ hnd.1), h]
    · simp only [dictInsert, if_neg h, List.map_cons, List.filter_cons]
      rw [if_neg (by simp [h])]
      exact ih hnd.2

/-- C7: adding the same word twice (both fetches succeeding) leaves exactly
one entry for that word in `get_all_words`, carrying the meaning and status of
the second add — the dict key is the exact (case-sensitive) word string and
the second insert overwrites the first. The duplicate-free-keys hypothesis is
the Python dict invariant. -/
theorem add_word_last_write_wins (p : Provider) (st : WordEmbeddingStore)
    (w m1 s1 m2 s2 : String) (v : List ℝ) (hp : p w = some v)
    (hnd : (st.words.map Prod.fst).Nodup) :
    (get_all_words (add_word p (add_word p st w m1 s1) w m2 s2)).filter
      (fun e => decide (e.word = w)) = [⟨w, m2, s2⟩] := by
  have h1 : add_word p st w m1 s1 =
      ⟨dictInsert w v st.embeddings, dictInsert w ⟨m1, s1⟩ st.words⟩ := by
    unfold add_word
    rw [hp]
  have h2 : add_word p (add_word p st w m1 s1) w m2 s2 =
      ⟨dictInsert w v (dictInsert w v st.embeddings),
       dictInsert w ⟨m2, s2⟩ (dictInsert w ⟨m1, s1⟩ st.words)⟩ := by
    rw [h1]
    unfold add_word
    rw [hp]
  rw [h2]
  show ((dictInsert w ⟨m2, s2⟩ (dictInsert w ⟨m1, s1⟩ st.words)).map
    fun e => (⟨e.1, e.2.meaning, e.2.status⟩ : WordInfo)).filter
      (fun e => decide (e.word = w)) = _
  rw [dictInsert_dictInsert]
  exact map_info_filter_dictInsert_self w ⟨m2, s2⟩ st.words hnd

theorem add_word_last_write_wins_witness :
    (get_all_words (add_word provOne
        (add_word provOne emptyStore "go" "iku" "new") "go" "hashiru" "mastered")).filter
      (fun e => decide (e.word = "go")) = [⟨"go", "hashiru", "mastered"⟩] :=
  add_word_last_write_wins provOne emptyStore "go" "iku" "new" "hashiru" "mastered"
    [1] rfl (by simp [emptyStore])

end Vocab
